import Mathlib

/-! Shallow embedding of the LinkedIn Genie frontend (React/TypeScript).

Covered here: the data model from src/types.ts; the declarative
client-side filter (the filteredData useMemo of the current App
component, and the applyFilters helper of the older App component);
the app-level state handlers (handleGraphBuilt, handleQueryResult and
the QueryBar submit handler); the FilterPanel company leaderboard; and
the SettingsPanel inference settings with their slider ranges.

Conventions of the embedding:
- a TypeScript optional field becomes an Option; JavaScript truthiness
  of an optional string is "present and non-empty", of an optional
  number "present and non-zero", of an optional array "present";
- the Cytoscape element wrapper (an object of shape { data: ... }) is
  inlined: a node is its NodeData record and an edge its EdgeData
  record, so node.data.company is written n.company;
- new Date(s) is modelled by an abstract parse function of type
  String -> Option Int (none standing for an Invalid Date); a
  JavaScript comparison involving an invalid date is false;
- toLowerCase and includes are modelled over character lists
  (jsIncludes below); numbers carried by the data are rationals. -/

namespace LinkedinGenie

/-- NodeData from src/types.ts (the data record of a Cytoscape node). -/
structure NodeData where
  id : String
  label : String
  company : Option String := none
  position : Option String := none
  location : Option String := none
  email : Option String := none
  connected_on : Option String := none
  degree : Option Nat := none
  betweenness : Option Rat := none
  community : Option Nat := none
deriving DecidableEq

/-- EdgeData from src/types.ts (the data record of a Cytoscape edge). -/
structure EdgeData where
  source : String
  target : String
  weight : Rat
  attributes : Option (List String) := none
deriving DecidableEq

/-- GraphData from src/types.ts: the node list and the edge list. -/
structure GraphData where
  nodes : List NodeData
  edges : List EdgeData
deriving DecidableEq

/-- FilterOptions from src/types.ts: the declarative filter criteria. -/
structure FilterOptions where
  companies : Option (List String) := none
  positions : Option (List String) := none
  location : Option String := none
  min_degree : Option Nat := none
  date_from : Option String := none
  date_to : Option String := none
  explain : Option String := none
deriving DecidableEq

/-- JavaScript truthiness of an optional string: present and non-empty. -/
def strTruthy : Option String → Bool
  | none => false
  | some s => s != ""

/-- JavaScript truthiness of an optional number: present and non-zero. -/
def natTruthy : Option Nat → Bool
  | none => false
  | some n => n != 0

/-- The guard xs && xs.length > 0 on an optional array. -/
def listActive : Option (List String) → Bool
  | none => false
  | some xs => decide (0 < xs.length)

/-- Whether the character list b occurs at the start of a. -/
def leadEq : List Char → List Char → Bool
  | [], _ => true
  | _ :: _, [] => false
  | a :: as, b :: bs => a == b && leadEq as bs

/-- Whether needle occurs contiguously somewhere in the second list
(the semantics of String.prototype.includes). -/
def hasSub (needle : List Char) : List Char → Bool
  | [] => needle.isEmpty
  | c :: t => leadEq needle (c :: t) || hasSub needle t

/-- s.toLowerCase() as a character list. -/
def lowerChars (s : String) : List Char := s.data.map Char.toLower

/-- hay.toLowerCase().includes(needle.toLowerCase()). -/
def jsIncludes (hay needle : String) : Bool :=
  hasSub (lowerChars needle) (lowerChars hay)

/-- v?.toLowerCase().includes(needle.toLowerCase()): an absent value is
falsy, so it matches nothing. -/
def optIncludes : Option String → String → Bool
  | none, _ => false
  | some s, needle => jsIncludes s needle

/-- JavaScript < on two parsed dates; false if either is invalid. -/
def jsDateLt : Option Int → Option Int → Bool
  | some a, some b => decide (a < b)
  | some _, none => false
  | none, _ => false

/-- JavaScript > on two parsed dates; false if either is invalid. -/
def jsDateGt : Option Int → Option Int → Bool
  | some a, some b => decide (b < a)
  | some _, none => false
  | none, _ => false

/-- The per-node body of the date-range filter step of filteredData:
a node with a falsy connected_on is rejected; otherwise the parsed
connection date is compared against the parsed supplied bounds. -/
def connDateOk (parseDate : String → Option Int) (f : FilterOptions)
    (n : NodeData) : Bool :=
  if strTruthy n.connected_on then
    let d := parseDate (n.connected_on.getD "")
    if strTruthy f.date_from && jsDateLt d (parseDate (f.date_from.getD "")) then
      false
    else if strTruthy f.date_to && jsDateGt d (parseDate (f.date_to.getD "")) then
      false
    else true
  else false

/-- The filteredData useMemo of the current App component (the branch
with graphData present and no query result): the node list is narrowed
by the company, position, location, minimum-degree and date-range
steps in order, then the edge list is re-derived from the surviving
node ids. -/
def filteredData (parseDate : String → Option Int) (g : GraphData)
    (f : FilterOptions) : GraphData :=
  let ns1 := if listActive f.companies then
      g.nodes.filter (fun n =>
        (f.companies.getD []).any (fun company => optIncludes n.company company))
    else g.nodes
  let ns2 := if listActive f.positions then
      ns1.filter (fun n =>
        (f.positions.getD []).any (fun position => optIncludes n.position position))
    else ns1
  let ns3 := if strTruthy f.location then
      ns2.filter (fun n => optIncludes n.location (f.location.getD ""))
    else ns2
  let ns4 := if natTruthy f.min_degree then
      ns3.filter (fun n => decide (f.min_degree.getD 0 ≤ n.degree.getD 0))
    else ns3
  let ns5 := if strTruthy f.date_from || strTruthy f.date_to then
      ns4.filter (fun n => connDateOk parseDate f n)
    else ns4
  let nodeIds := ns5.map (fun n => n.id)
  { nodes := ns5
    edges := g.edges.filter (fun e =>
      nodeIds.contains e.source && nodeIds.contains e.target) }

/-- The applyFilters helper of the older App component: identical to
filteredData except that it has no date-range step. -/
def applyFilters (g : GraphData) (f : FilterOptions) : GraphData :=
  let ns1 := if listActive f.companies then
      g.nodes.filter (fun n =>
        (f.companies.getD []).any (fun company => optIncludes n.company company))
    else g.nodes
  let ns2 := if listActive f.positions then
      ns1.filter (fun n =>
        (f.positions.getD []).any (fun position => optIncludes n.position position))
    else ns1
  let ns3 := if strTruthy f.location then
      ns2.filter (fun n => optIncludes n.location (f.location.getD ""))
    else ns2
  let ns4 := if natTruthy f.min_degree then
      ns3.filter (fun n => decide (f.min_degree.getD 0 ≤ n.degree.getD 0))
    else ns3
  let nodeIds := ns4.map (fun n => n.id)
  { nodes := ns4
    edges := g.edges.filter (fun e =>
      nodeIds.contains e.source && nodeIds.contains e.target) }

/-- Spec-side company criterion: not supplied (absent, or an empty
list) excludes no node; a supplied non-empty list is satisfied when the
node's company contains at least one entry case-insensitively. -/
def companiesOk (f : FilterOptions) (n : NodeData) : Bool :=
  match f.companies with
  | none => true
  | some [] => true
  | some cs => cs.any (fun company => optIncludes n.company company)

/-- Spec-side position criterion, analogous to companiesOk. -/
def positionsOk (f : FilterOptions) (n : NodeData) : Bool :=
  match f.positions with
  | none => true
  | some [] => true
  | some ps => ps.any (fun position => optIncludes n.position position)

/-- Spec-side location criterion: not supplied (absent or empty string)
excludes no node; otherwise case-insensitive substring on location. -/
def locationOk (f : FilterOptions) (n : NodeData) : Bool :=
  match f.location with
  | none => true
  | some l => if l = "" then true else optIncludes n.location l

/-- Spec-side minimum-degree criterion: not supplied (absent or zero)
excludes no node; otherwise the stored degree must reach the bound. -/
def minDegreeOk (f : FilterOptions) (n : NodeData) : Bool :=
  match f.min_degree with
  | none => true
  | some d => decide (d ≤ n.degree.getD 0)

/-- Spec-side date-range criterion: with no truthy bound it excludes no
node; otherwise the node must have a truthy connected_on whose parsed
date is not before a supplied lower bound and not after a supplied
upper bound. -/
def dateOk (parseDate : String → Option Int) (f : FilterOptions)
    (n : NodeData) : Bool :=
  !(strTruthy f.date_from || strTruthy f.date_to) || connDateOk parseDate f n

/-- Spec-side conjunction of the four date-free criteria. -/
def satisfiesBase (f : FilterOptions) (n : NodeData) : Bool :=
  companiesOk f n && positionsOk f n && locationOk f n && minDegreeOk f n

/-- Spec-side conjunction of all five criteria. -/
def satisfiesAll (parseDate : String → Option Int) (f : FilterOptions)
    (n : NodeData) : Bool :=
  satisfiesBase f n && dateOk parseDate f n

/-- The company filter step equals one filter by the company criterion. -/
theorem companies_step (f : FilterOptions) (l : List NodeData) :
    (if listActive f.companies then
        l.filter (fun n =>
          (f.companies.getD []).any (fun company => optIncludes n.company company))
      else l) = l.filter (fun n => companiesOk f n) := by
  cases hc : f.companies with
  | none => simp [listActive, companiesOk, hc]
  | some cs =>
    cases cs with
    | nil => simp [listActive, companiesOk, hc]
    | cons c cs => simp [listActive, companiesOk, hc]

/-- The position filter step equals one filter by the position criterion. -/
theorem positions_step (f : FilterOptions) (l : List NodeData) :
    (if listActive f.positions then
        l.filter (fun n =>
          (f.positions.getD []).any (fun position => optIncludes n.position position))
      else l) = l.filter (fun n => positionsOk f n) := by
  cases hp : f.positions with
  | none => simp [listActive, positionsOk, hp]
  | some ps =>
    cases ps with
    | nil => simp [listActive, positionsOk, hp]
    | cons p ps => simp [listActive, positionsOk, hp]

/-- The location filter step equals one filter by the location criterion. -/
theorem location_step (f : FilterOptions) (l : List NodeData) :
    (if strTruthy f.location then
        l.filter (fun n => optIncludes n.location (f.location.getD ""))
      else l) = l.filter (fun n => locationOk f n) := by
  cases hl : f.location with
  | none => simp [strTruthy, locationOk, hl]
  | some s =>
    by_cases hs : s = ""
    · subst hs; simp [strTruthy, locationOk, hl]
    · simp [strTruthy, locationOk, hl, hs]

/-- The degree filter step equals one filter by the degree criterion. -/
theorem min_degree_step (f : FilterOptions) (l : List NodeData) :
    (if natTruthy f.min_degree then
        l.filter (fun n => decide (f.min_degree.getD 0 ≤ n.degree.getD 0))
      else l) = l.filter (fun n => minDegreeOk f n) := by
  cases hd : f.min_degree with
  | none => simp [natTruthy, minDegreeOk, hd]
  | some d =>
    by_cases h0 : d = 0
    · subst h0; simp [natTruthy, minDegreeOk, hd]
    · simp [natTruthy, minDegreeOk, hd, h0]

/-- The date filter step equals one filter by the date criterion. -/
theorem date_step (pd : String → Option Int) (f : FilterOptions)
    (l : List NodeData) :
    (if strTruthy f.date_from || strTruthy f.date_to then
        l.filter (fun n => connDateOk pd f n)
      else l) = l.filter (fun n => dateOk pd f n) := by
  cases hb : strTruthy f.date_from || strTruthy f.date_to with
  | false => simp [dateOk, hb]
  | true => simp [dateOk, hb]

/-- The node list produced by filteredData is the input node list
filtered by the conjunction of the five spec-side criteria. -/
theorem filteredData_nodes (pd : String → Option Int) (g : GraphData)
    (f : FilterOptions) :
    (filteredData pd g f).nodes = g.nodes.filter (satisfiesAll pd f) := by
  unfold filteredData
  dsimp only
  rw [companies_step, positions_step, location_step, min_degree_step, date_step,
    List.filter_filter, List.filter_filter, List.filter_filter, List.filter_filter]
  refine List.filter_congr ?_
  intro n _
  simp only [satisfiesAll, satisfiesBase]
  cases companiesOk f n <;> cases positionsOk f n <;> cases locationOk f n <;>
    cases minDegreeOk f n <;> cases dateOk pd f n <;> rfl

/-- The node list produced by applyFilters is the input node list
filtered by the conjunction of the four date-free spec-side criteria. -/
theorem applyFilters_nodes (g : GraphData) (f : FilterOptions) :
    (applyFilters g f).nodes = g.nodes.filter (satisfiesBase f) := by
  unfold applyFilters
  dsimp only
  rw [companies_step, positions_step, location_step, min_degree_step,
    List.filter_filter, List.filter_filter, List.filter_filter]
  refine List.filter_congr ?_
  intro n _
  simp only [satisfiesBase]
  cases companiesOk f n <;> cases positionsOk f n <;> cases locationOk f n <;>
    cases minDegreeOk f n <;> rfl

/-- Membership of an id in the surviving id set equals an existence
check over the surviving nodes. -/
theorem nodeIds_contains (l : List NodeData) (s : String) :
    (l.map (fun n => n.id)).contains s = l.any (fun n => n.id == s) := by
  induction l with
  | nil => rfl
  | cons n t ih =>
    simp only [List.map_cons, List.contains_cons, List.any_cons, ← ih]
    rw [Bool.beq_comm]

/-- The edge list produced by filteredData is the input edge list
filtered by the requirement that both endpoints occur among the
surviving nodes. -/
theorem filteredData_edges (pd : String → Option Int) (g : GraphData)
    (f : FilterOptions) :
    (filteredData pd g f).edges = g.edges.filter (fun e =>
      (filteredData pd g f).nodes.any (fun n => n.id == e.source) &&
      (filteredData pd g f).nodes.any (fun n => n.id == e.target)) := by
  have h : (filteredData pd g f).edges = g.edges.filter (fun e =>
      ((filteredData pd g f).nodes.map (fun n => n.id)).contains e.source &&
      ((filteredData pd g f).nodes.map (fun n => n.id)).contains e.target) := rfl
  rw [h]
  refine List.filter_congr ?_
  intro e _
  rw [nodeIds_contains, nodeIds_contains]

/-- The edge list produced by applyFilters is the input edge list
filtered by the requirement that both endpoints occur among the
surviving nodes. -/
theorem applyFilters_edges (g : GraphData) (f : FilterOptions) :
    (applyFilters g f).edges = g.edges.filter (fun e =>
      (applyFilters g f).nodes.any (fun n => n.id == e.source) &&
      (applyFilters g f).nodes.any (fun n => n.id == e.target)) := by
  have h : (applyFilters g f).edges = g.edges.filter (fun e =>
      ((applyFilters g f).nodes.map (fun n => n.id)).contains e.source &&
      ((applyFilters g f).nodes.map (fun n => n.id)).contains e.target) := rfl
  rw [h]
  refine List.filter_congr ?_
  intro e _
  rw [nodeIds_contains, nodeIds_contains]

/-- A parse function on which every string is an invalid date; used by
concrete witnesses. -/
def noParse : String → Option Int := fun _ => none

/-- A node with no connected_on value, used by the C1 counterexample. -/
def undatedNode : NodeData := { id := "1", label := "Ann" }

/-- A criteria object supplying only a date_from bound, for C1. -/
def fromFilter : FilterOptions := { date_from := some "2020-01-01" }

/-- A one-node graph containing undatedNode, for C1. -/
def undatedGraph : GraphData := { nodes := [undatedNode], edges := [] }

/-- C1 counterexample: applyFilters has no date-range step, so with a
truthy date_from supplied it returns a node that does not satisfy the
supplied date-range criterion (the node's connected_on is absent) —
refuting, for that implementation, the claim that the filter returns
exactly the nodes satisfying all supplied criteria. -/
theorem applyFilters_ignores_date_bound :
    strTruthy fromFilter.date_from = true ∧
    satisfiesAll noParse fromFilter undatedNode = false ∧
    undatedNode ∈ (applyFilters undatedGraph fromFilter).nodes := by
  decide

/-- C1 (amended): for every graph and every filter criteria object,
filteredData returns exactly the nodes that satisfy all five supplied
criteria simultaneously — a logical AND across the company-list,
position-list, location, minimum-degree and date-range criteria, a
logical OR (case-insensitive substring) within a list-valued criterion,
and a criterion that is not supplied (absent, an empty list, an empty
string, or a zero minimum degree) excludes no node — while applyFilters
returns exactly the nodes that satisfy the four date-free criteria
under the same conventions: its date-range criterion is not applied. -/
theorem filter_returns_exactly_satisfying_nodes_amended
    (pd : String → Option Int) (g : GraphData) (f : FilterOptions) :
    ((filteredData pd g f).nodes = g.nodes.filter (satisfiesAll pd f) ∧
      ∀ n : NodeData, n ∈ (filteredData pd g f).nodes ↔
        (n ∈ g.nodes ∧ satisfiesAll pd f n = true)) ∧
    ((applyFilters g f).nodes = g.nodes.filter (satisfiesBase f) ∧
      ∀ n : NodeData, n ∈ (applyFilters g f).nodes ↔
        (n ∈ g.nodes ∧ satisfiesBase f n = true)) := by
  refine ⟨⟨filteredData_nodes pd g f, ?_⟩, ⟨applyFilters_nodes g f, ?_⟩⟩
  · intro n
    rw [filteredData_nodes pd g f]
    exact List.mem_filter
  · intro n
    rw [applyFilters_nodes g f]
    exact List.mem_filter

/-- C2: for both implementations of the declarative filter, the result
edge set is exactly the subset of the input edges whose source id and
target id both occur among the surviving filtered nodes, and every
returned edge passes that endpoint check (so no returned edge has an
endpoint outside the returned node set, regardless of weight). -/
theorem filter_edges_restricted_to_surviving_nodes
    (pd : String → Option Int) (g : GraphData) (f : FilterOptions) :
    ((filteredData pd g f).edges = g.edges.filter (fun e =>
        (filteredData pd g f).nodes.any (fun n => n.id == e.source) &&
        (filteredData pd g f).nodes.any (fun n => n.id == e.target)) ∧
      (filteredData pd g f).edges.all (fun e =>
        (filteredData pd g f).nodes.any (fun n => n.id == e.source) &&
        (filteredData pd g f).nodes.any (fun n => n.id == e.target)) = true) ∧
    ((applyFilters g f).edges = g.edges.filter (fun e =>
        (applyFilters g f).nodes.any (fun n => n.id == e.source) &&
        (applyFilters g f).nodes.any (fun n => n.id == e.target)) ∧
      (applyFilters g f).edges.all (fun e =>
        (applyFilters g f).nodes.any (fun n => n.id == e.source) &&
        (applyFilters g f).nodes.any (fun n => n.id == e.target)) = true) := by
  refine ⟨⟨filteredData_edges pd g f, ?_⟩, ⟨applyFilters_edges g f, ?_⟩⟩
  · rw [List.all_eq_true]
    intro e he
    rw [filteredData_edges pd g f] at he
    exact (List.mem_filter.mp he).2
  · rw [List.all_eq_true]
    intro e he
    rw [applyFilters_edges g f] at he
    exact (List.mem_filter.mp he).2

/-- The concrete criteria object of the C3 scenario:
companies = ["Acme"], min_degree = 1. -/
def acmeFilter : FilterOptions :=
  { companies := some ["Acme"], min_degree := some 1 }

/-- C3: for every graph, filtering with companies = ["Acme"] and
min_degree = 1 keeps exactly the nodes whose company contains "Acme"
case-insensitively and whose stored degree is at least 1, and restricts
the edges to those whose endpoints both survive. -/
theorem acme_min_degree_scenario (pd : String → Option Int) (g : GraphData) :
    (filteredData pd g acmeFilter).nodes = g.nodes.filter (fun n =>
      optIncludes n.company "Acme" && decide (1 ≤ n.degree.getD 0)) ∧
    (filteredData pd g acmeFilter).edges = g.edges.filter (fun e =>
      (filteredData pd g acmeFilter).nodes.any (fun n => n.id == e.source) &&
      (filteredData pd g acmeFilter).nodes.any (fun n => n.id == e.target)) := by
  refine ⟨?_, filteredData_edges pd g acmeFilter⟩
  rw [filteredData_nodes]
  refine List.filter_congr ?_
  intro n _
  simp [satisfiesAll, satisfiesBase, companiesOk, positionsOk, locationOk,
    minDegreeOk, dateOk, acmeFilter, strTruthy]

/-- C4: the declarative filter computes its result without touching its
input: in this embedding both implementations are pure functions of the
graph, and the result's node and edge lists are sublists of the input's
lists — the surviving elements are the input's own unmodified records,
assembled into fresh lists, so the input graph's node array, edge array
and every record in them are unchanged. -/
theorem filter_does_not_mutate_input (pd : String → Option Int)
    (g : GraphData) (f : FilterOptions) :
    (filteredData pd g f).nodes.Sublist g.nodes ∧
    (filteredData pd g f).edges.Sublist g.edges ∧
    (applyFilters g f).nodes.Sublist g.nodes ∧
    (applyFilters g f).edges.Sublist g.edges := by
  refine ⟨?_, ?_, ?_, ?_⟩
  · rw [filteredData_nodes]; exact List.filter_sublist g.nodes
  · rw [filteredData_edges]; exact List.filter_sublist g.edges
  · rw [applyFilters_nodes]; exact List.filter_sublist g.nodes
  · rw [applyFilters_edges]; exact List.filter_sublist g.edges

/-- C9: whenever a truthy date_from or date_to bound is supplied, a node
whose connected_on is absent or empty is excluded from the result, even
if it satisfies every other criterion. -/
theorem date_bound_excludes_dateless_nodes (pd : String → Option Int)
    (g : GraphData) (f : FilterOptions) (n : NodeData)
    (hb : (strTruthy f.date_from || strTruthy f.date_to) = true)
    (hc : strTruthy n.connected_on = false) :
    n ∉ (filteredData pd g f).nodes := by
  rw [filteredData_nodes]
  intro hmem
  have hsat := (List.mem_filter.mp hmem).2
  simp [satisfiesAll, dateOk, hb, connDateOk, hc] at hsat

/-- A node with no connection date, for the C9 witness. -/
def c9Node : NodeData := { id := "1", label := "Ann" }

/-- A criteria object supplying only a lower date bound, for C9. -/
def c9Filter : FilterOptions := { date_from := some "2023-01-01" }

/-- A one-node graph containing c9Node, for the C9 witness. -/
def c9Graph : GraphData := { nodes := [c9Node], edges := [] }

/-- Witness for C9 at a concrete graph, criteria object and node. -/
theorem date_bound_excludes_dateless_nodes_witness :
    (strTruthy c9Filter.date_from || strTruthy c9Filter.date_to) = true ∧
    strTruthy c9Node.connected_on = false ∧
    c9Node ∉ (filteredData noParse c9Graph c9Filter).nodes :=
  ⟨by decide, by decide,
    date_bound_excludes_dateless_nodes noParse c9Graph c9Filter c9Node
      (by decide) (by decide)⟩

/-- C10: on a graph whose edges all have both endpoints among the node
ids, filtering with the empty criteria object is the identity, for both
implementations of the declarative filter. -/
theorem empty_filter_is_identity (pd : String → Option Int) (g : GraphData)
    (h : g.edges.all (fun e =>
      g.nodes.any (fun n => n.id == e.source) &&
      g.nodes.any (fun n => n.id == e.target)) = true) :
    filteredData pd g {} = g ∧ applyFilters g {} = g := by
  have hall := List.all_eq_true.mp h
  have hn1 : (filteredData pd g {}).nodes = g.nodes := by
    rw [filteredData_nodes]
    refine List.filter_eq_self.mpr ?_
    intro n _
    simp [satisfiesAll, satisfiesBase, companiesOk, positionsOk, locationOk,
      minDegreeOk, dateOk, strTruthy]
  have hn2 : (applyFilters g {}).nodes = g.nodes := by
    rw [applyFilters_nodes]
    refine List.filter_eq_self.mpr ?_
    intro n _
    simp [satisfiesBase, companiesOk, positionsOk, locationOk, minDegreeOk]
  have he1 : (filteredData pd g {}).edges = g.edges := by
    rw [filteredData_edges, hn1]
    exact List.filter_eq_self.mpr (fun e he => hall e he)
  have he2 : (applyFilters g {}).edges = g.edges := by
    rw [applyFilters_edges, hn2]
    exact List.filter_eq_self.mpr (fun e he => hall e he)
  constructor
  · calc filteredData pd g {}
        = ⟨(filteredData pd g {}).nodes, (filteredData pd g {}).edges⟩ := rfl
      _ = ⟨g.nodes, g.edges⟩ := by rw [hn1, he1]
      _ = g := rfl
  · calc applyFilters g {}
        = ⟨(applyFilters g {}).nodes, (applyFilters g {}).edges⟩ := rfl
      _ = ⟨g.nodes, g.edges⟩ := by rw [hn2, he2]
      _ = g := rfl

/-- A two-node, one-edge graph whose edge endpoints are node ids, for
the C10 witness. -/
def c10Graph : GraphData :=
  { nodes := [{ id := "1", label := "Ann", company := some "Acme" },
              { id := "2", label := "Bob", company := some "Beta" }]
    edges := [{ source := "1", target := "2", weight := 3 }] }

/-- Witness for C10 at a concrete well-formed graph. -/
theorem empty_filter_is_identity_witness :
    (c10Graph.edges.all (fun e =>
      c10Graph.nodes.any (fun n => n.id == e.source) &&
      c10Graph.nodes.any (fun n => n.id == e.target)) = true) ∧
    (filteredData noParse c10Graph {} = c10Graph ∧
      applyFilters c10Graph {} = c10Graph) :=
  ⟨by decide, empty_filter_is_identity noParse c10Graph (by decide)⟩

/-- The two top-level views of the current App component. -/
inductive View
  | upload
  | dashboard
deriving DecidableEq

/-- GraphMetrics from src/types.ts: the snapshot delivered together
with a built graph. Leaderboard entries are (name, count) pairs and
(id, name, value) triples. -/
structure GraphMetrics where
  total_nodes : Nat
  total_edges : Nat
  avg_degree : Rat
  density : Rat
  communities : Nat
  top_companies : List (String × Nat)
  top_positions : List (String × Nat)
  top_connectors : List (String × String × Nat)
  centrality_leaders : List (String × String × Rat)
deriving DecidableEq

/-- QueryResult from src/types.ts; the filter field is modelled as
possibly absent because handleQueryResult guards it (result.filter or
the empty object). -/
structure QueryResult where
  filter : Option FilterOptions
  explain : String
  graph : GraphData
deriving DecidableEq

/-- The useState hooks of the current App component, collected into one
state record. -/
structure AppState where
  currentView : View
  graphData : Option GraphData
  filters : FilterOptions
  queryResult : Option GraphData
  selectedNode : Option NodeData
  metrics : Option GraphMetrics
  showSettings : Bool
  showMetrics : Bool
deriving DecidableEq

/-- handleGraphBuilt of the current App component: store the new graph
and metrics, clear the filters, drop any query result and switch to the
dashboard view. -/
def handleGraphBuilt (s : AppState) (data : GraphData)
    (metricsData : GraphMetrics) : AppState :=
  { s with graphData := some data
           metrics := some metricsData
           filters := {}
           queryResult := none
           currentView := View.dashboard }

/-- handleQueryResult of the current App component: store the query's
graph and adopt the filter the query returned (or the empty criteria
object when it returned none). -/
def handleQueryResult (s : AppState) (result : QueryResult) : AppState :=
  { s with queryResult := some result.graph
           filters := result.filter.getD {} }

/-- The useState hooks of the QueryBar component. -/
structure QueryBarState where
  query : String
  isLoading : Bool
  lastExplanation : String
deriving DecidableEq

/-- handleSubmit of the QueryBar component. The outcome argument stands
for the settled queryGraph promise; the early return fires on a blank
query or while already loading; on success the result is delivered to
the App via handleQueryResult and the explanation is stored; on failure
only a toast is shown; the finally block clears the loading flag. -/
def handleSubmit (s : AppState) (qb : QueryBarState)
    (outcome : Except String QueryResult) : AppState × QueryBarState :=
  if qb.query.trim == "" || qb.isLoading then (s, qb)
  else
    match outcome with
    | Except.ok result =>
        (handleQueryResult s result,
          { qb with lastExplanation := result.explain, isLoading := false })
    | Except.error _ => (s, { qb with isLoading := false })

/-- C5: when the queryGraph call rejects, the application state is
unchanged — the held graph data, the active filters and any previous
query result are exactly what they were — and the previous explanation
text is also retained; the failure affects nothing beyond that query. -/
theorem query_failure_leaves_state_unchanged (s : AppState)
    (qb : QueryBarState) (err : String) :
    (handleSubmit s qb (Except.error err)).1 = s ∧
    (handleSubmit s qb (Except.error err)).1.graphData = s.graphData ∧
    (handleSubmit s qb (Except.error err)).1.filters = s.filters ∧
    (handleSubmit s qb (Except.error err)).1.queryResult = s.queryResult ∧
    (handleSubmit s qb (Except.error err)).2.lastExplanation =
      qb.lastExplanation := by
  cases hq : qb.query.trim == "" || qb.isLoading with
  | false => simp [handleSubmit, hq]
  | true => simp [handleSubmit, hq]

/-- C6: handleGraphBuilt replaces the graph state wholesale with the
newly built graph and metrics, resets the filters to the empty criteria
object, discards any previous query result, and the stored graph is
exactly the delivered one — no node or edge of a previous graph is
merged in or retained. -/
theorem handleGraphBuilt_replaces_state (s : AppState) (data : GraphData)
    (metricsData : GraphMetrics) :
    (handleGraphBuilt s data metricsData).graphData = some data ∧
    (handleGraphBuilt s data metricsData).metrics = some metricsData ∧
    (handleGraphBuilt s data metricsData).filters = ({} : FilterOptions) ∧
    (handleGraphBuilt s data metricsData).queryResult = none ∧
    (handleGraphBuilt s data metricsData).currentView = View.dashboard ∧
    ((handleGraphBuilt s data metricsData).graphData.getD ⟨[], []⟩).nodes =
      data.nodes ∧
    ((handleGraphBuilt s data metricsData).graphData.getD ⟨[], []⟩).edges =
      data.edges :=
  ⟨rfl, rfl, rfl, rfl, rfl, rfl, rfl⟩

/-- One companyMap.set(c, (companyMap.get(c) || 0) + 1) on a JavaScript
Map rendered as an insertion-ordered association list: an existing key
keeps its position and its count grows by one; a new key is appended. -/
def bump : List (String × Nat) → String → List (String × Nat)
  | [], c => [(c, 1)]
  | (k, v) :: rest, c =>
    if k = c then (k, v + 1) :: rest else (k, v) :: bump rest c

/-- The companyMap built by the FilterPanel useEffect: each node with a
truthy company bumps that company's entry. -/
def companyEntries (nodes : List NodeData) : List (String × Nat) :=
  nodes.foldl (fun m n =>
    match n.company with
    | some c => if c = "" then m else bump m c
    | none => m) []

/-- Stable insertion of an entry into a count-descending list: the new
entry goes after every entry whose count is greater than or equal to
its own (the stable behaviour of Array.prototype.sort with the
comparator (a, b) => b.count - a.count). -/
def insertByCountDesc (x : String × Nat) :
    List (String × Nat) → List (String × Nat)
  | [] => [x]
  | y :: ys => if x.2 ≤ y.2 then y :: insertByCountDesc x ys else x :: y :: ys

/-- Stable sort of the entries by descending count. -/
def sortByCountDesc (l : List (String × Nat)) : List (String × Nat) :=
  l.foldl (fun acc x => insertByCountDesc x acc) []

/-- availableCompanies as computed by the FilterPanel useEffect: the
company map entries, sorted by descending count, first 20 kept. -/
def availableCompanies (nodes : List NodeData) : List (String × Nat) :=
  (sortByCountDesc (companyEntries nodes)).take 20

/-- The truthy company values of the nodes, in node order. -/
def truthyCompanies (nodes : List NodeData) : List String :=
  nodes.filterMap (fun n =>
    match n.company with
    | some c => if c = "" then none else some c
    | none => none)

/-- The values of cs not in seen, deduplicated, in first-encounter
order. -/
def newKeys (seen : List String) : List String → List String
  | [] => []
  | c :: cs => if c ∈ seen then newKeys seen cs else c :: newKeys (c :: seen) cs

/-- Spec-side leaderboard basis: each distinct non-empty company in
first-encountered order, paired with its frequency count over the
graph's nodes. -/
def companyFreq (nodes : List NodeData) : List (String × Nat) :=
  (newKeys [] (truthyCompanies nodes)).map (fun c =>
    (c, nodes.countP (fun n => n.company == some c)))

/-- Folding bump over the nodes equals folding it over their truthy
company values. -/
theorem companyEntries_eq_foldl (nodes : List NodeData) :
    ∀ m : List (String × Nat),
      nodes.foldl (fun m n =>
        match n.company with
        | some c => if c = "" then m else bump m c
        | none => m) m = (truthyCompanies nodes).foldl bump m := by
  induction nodes with
  | nil => intro m; rfl
  | cons n t ih =>
    intro m
    rw [List.foldl_cons]
    cases hc : n.company with
    | none =>
      have h2 : truthyCompanies (n :: t) = truthyCompanies t := by
        simp [truthyCompanies, List.filterMap_cons, hc]
      simp only [hc, h2]
      exact ih m
    | some c =>
      by_cases he : c = ""
      · have h2 : truthyCompanies (n :: t) = truthyCompanies t := by
          simp [truthyCompanies, List.filterMap_cons, hc, he]
        simp only [hc, he, if_pos, h2]
        exact ih m
      · have h2 : truthyCompanies (n :: t) = c :: truthyCompanies t := by
          simp [truthyCompanies, List.filterMap_cons, hc, he]
        simp only [hc, h2]
        rw [if_neg he, List.foldl_cons]
        exact ih (bump m c)

/-- newKeys only depends on the membership content of seen. -/
theorem newKeys_congr : ∀ (cs seen1 seen2 : List String),
    (∀ x, x ∈ seen1 ↔ x ∈ seen2) → newKeys seen1 cs = newKeys seen2 cs := by
  intro cs
  induction cs with
  | nil => intro seen1 seen2 _; rfl
  | cons c cs ih =>
    intro seen1 seen2 h
    by_cases hm : c ∈ seen1
    · rw [newKeys, if_pos hm, newKeys, if_pos ((h c).mp hm)]
      exact ih seen1 seen2 h
    · rw [newKeys, if_neg hm, newKeys, if_neg (fun hx => hm ((h c).mpr hx))]
      refine congrArg (c :: ·) (ih (c :: seen1) (c :: seen2) ?_)
      intro x
      simp only [List.mem_cons]
      exact or_congr Iff.rfl (h x)

/-- A key produced by newKeys comes from its second argument. -/
theorem newKeys_subset : ∀ (cs seen : List String) (x : String),
    x ∈ newKeys seen cs → x ∈ cs := by
  intro cs
  induction cs with
  | nil => intro seen x h; exact absurd h (by simp [newKeys])
  | cons c cs ih =>
    intro seen x h
    rw [newKeys] at h
    by_cases hm : c ∈ seen
    · rw [if_pos hm] at h
      exact List.mem_cons_of_mem c (ih seen x h)
    · rw [if_neg hm] at h
      rcases List.mem_cons.mp h with h | h
      · exact h ▸ List.mem_cons_self x cs
      · exact List.mem_cons_of_mem c (ih (c :: seen) x h)

/-- A key produced by newKeys is not among the already-seen keys. -/
theorem newKeys_not_seen : ∀ (cs seen : List String) (x : String),
    x ∈ newKeys seen cs → x ∉ seen := by
  intro cs
  induction cs with
  | nil => intro seen x h; exact absurd h (by simp [newKeys])
  | cons c cs ih =>
    intro seen x h
    rw [newKeys] at h
    by_cases hm : c ∈ seen
    · rw [if_pos hm] at h
      exact ih seen x h
    · rw [if_neg hm] at h
      rcases List.mem_cons.mp h with h | h
      · exact h ▸ hm
      · intro hx
        exact ih (c :: seen) x h (List.mem_cons_of_mem c hx)

/-- A key absent from the key column differs from every entry's key. -/
theorem not_mem_fst (m : List (String × Nat)) (c : String)
    (h : c ∉ m.map Prod.fst) : ∀ p ∈ m, p.1 ≠ c := by
  intro p hp hpc
  exact h (hpc ▸ List.mem_map_of_mem Prod.fst hp)

/-- Bumping an absent key appends a fresh entry with count one. -/
theorem bump_not_mem (m : List (String × Nat)) (c : String)
    (h : c ∉ m.map Prod.fst) : bump m c = m ++ [(c, 1)] := by
  induction m with
  | nil => rfl
  | cons p rest ih =>
    obtain ⟨k, v⟩ := p
    have hk : k ≠ c := by
      intro hkc
      exact h (by simp [hkc])
    have hr : c ∉ rest.map Prod.fst := by
      intro hc
      exact h (by simp [hc])
    rw [bump, if_neg hk, ih hr, List.cons_append]

/-- Bumping a present key leaves the key column unchanged. -/
theorem bump_mem_keys (m : List (String × Nat)) (c : String)
    (h : c ∈ m.map Prod.fst) : (bump m c).map Prod.fst = m.map Prod.fst := by
  induction m with
  | nil => exact absurd h (by simp)
  | cons p rest ih =>
    obtain ⟨k, v⟩ := p
    by_cases hk : k = c
    · rw [bump, if_pos hk]
      simp
    · have hr : c ∈ rest.map Prod.fst := by
        rw [List.map_cons] at h
        rcases List.mem_cons.mp h with h' | h'
        · exact absurd h'.symm hk
        · exact h'
      rw [bump, if_neg hk, List.map_cons, List.map_cons, ih hr]

/-- Bumping a present key under distinct keys adds one to exactly that
entry's count, uniformly under any further per-key increment g. -/
theorem bump_map_count : ∀ (m : List (String × Nat)) (c : String),
    (m.map Prod.fst).Nodup → c ∈ m.map Prod.fst → ∀ g : String → Nat,
    (bump m c).map (fun p => (p.1, p.2 + g p.1)) =
      m.map (fun p => (p.1, p.2 + g p.1 + if p.1 = c then 1 else 0)) := by
  intro m
  induction m with
  | nil => intro c _ h; exact absurd h (by simp)
  | cons p rest ih =>
    intro c hnd hmem g
    obtain ⟨k, v⟩ := p
    have hnd' : (rest.map Prod.fst).Nodup :=
      (List.nodup_cons.mp (by simpa using hnd)).2
    have hknr : k ∉ rest.map Prod.fst :=
      (List.nodup_cons.mp (by simpa using hnd)).1
    by_cases hk : k = c
    · subst hk
      rw [bump, if_pos rfl]
      simp only [List.map_cons, List.cons.injEq]
      refine ⟨?_, ?_⟩
      · have h2 : v + 1 + g k = v + g k + 1 := by omega
        rw [h2]
        simp
      · refine List.map_congr_left ?_
        intro p hp
        have hpk : p.1 ≠ k := not_mem_fst rest k hknr p hp
        rw [if_neg hpk, Nat.add_zero]
    · have hcr : c ∈ rest.map Prod.fst := by
        rw [List.map_cons] at hmem
        rcases List.mem_cons.mp hmem with h' | h'
        · exact absurd h'.symm hk
        · exact h'
      rw [bump, if_neg hk]
      simp only [List.map_cons, List.cons.injEq]
      refine ⟨?_, ?_⟩
      · rw [if_neg hk, Nat.add_zero]
      · exact ih c hnd' hcr g

/-- Folding bump over a value sequence: existing entries gain the
number of further occurrences of their key, and the keys not yet
present are appended in first-encounter order with their occurrence
counts. -/
theorem foldl_bump_spec : ∀ (cs : List String) (m : List (String × Nat)),
    (m.map Prod.fst).Nodup →
    cs.foldl bump m =
      m.map (fun p => (p.1, p.2 + cs.count p.1)) ++
      (newKeys (m.map Prod.fst) cs).map (fun c => (c, cs.count c)) := by
  intro cs
  induction cs with
  | nil =>
    intro m _
    simp [newKeys]
  | cons c cs ih =>
    intro m hnd
    rw [List.foldl_cons]
    by_cases hc : c ∈ m.map Prod.fst
    · have hnd' : ((bump m c).map Prod.fst).Nodup := by
        rw [bump_mem_keys m c hc]
        exact hnd
      rw [ih (bump m c) hnd', bump_mem_keys m c hc]
      have hA : (bump m c).map (fun p => (p.1, p.2 + cs.count p.1)) =
          m.map (fun p => (p.1, p.2 + (c :: cs).count p.1)) := by
        rw [bump_map_count m c hnd hc (fun k => cs.count k)]
        refine List.map_congr_left ?_
        intro p hp
        by_cases hpc : p.1 = c
        · rw [if_pos hpc, hpc, List.count_cons_self, Nat.add_assoc]
        · rw [if_neg hpc, Nat.add_zero, List.count_cons_of_ne hpc]
      have hB : (newKeys (m.map Prod.fst) (c :: cs)).map
            (fun c' => (c', (c :: cs).count c')) =
          (newKeys (m.map Prod.fst) cs).map (fun c' => (c', cs.count c')) := by
        rw [newKeys, if_pos hc]
        refine List.map_congr_left ?_
        intro c' hc'
        have hne : c' ≠ c := fun he =>
          (newKeys_not_seen cs (m.map Prod.fst) c' hc') (he ▸ hc)
        rw [List.count_cons_of_ne hne]
      rw [hA, ← hB]
    · have hb : bump m c = m ++ [(c, 1)] := bump_not_mem m c hc
      have hkeys : (m ++ [(c, 1)]).map Prod.fst = m.map Prod.fst ++ [c] := by
        rw [List.map_append]
        rfl
      have hnd' : ((bump m c).map Prod.fst).Nodup := by
        rw [hb, hkeys]
        refine List.Nodup.append hnd (List.nodup_singleton c) ?_
        intro a ha hb2
        rw [List.mem_singleton] at hb2
        exact hc (hb2 ▸ ha)
      rw [ih (bump m c) hnd', hb, hkeys]
      have hL : m.map (fun p => (p.1, p.2 + cs.count p.1)) =
          m.map (fun p => (p.1, p.2 + (c :: cs).count p.1)) := by
        refine List.map_congr_left ?_
        intro p hp
        have hpc : p.1 ≠ c := not_mem_fst m c hc p hp
        rw [List.count_cons_of_ne hpc]
      have hR : [((c : String), (1 : Nat))].map
            (fun p : String × Nat => (p.1, p.2 + cs.count p.1)) =
          [(c, (c :: cs).count c)] := by
        rw [List.count_cons_self]
        simp [Nat.add_comm]
      have h1 : (m ++ [(c, 1)]).map
            (fun p : String × Nat => (p.1, p.2 + cs.count p.1)) =
          m.map (fun p => (p.1, p.2 + (c :: cs).count p.1)) ++
            [(c, (c :: cs).count c)] := by
        rw [List.map_append, hL, hR]
      have h2 : newKeys (m.map Prod.fst ++ [c]) cs =
          newKeys (c :: m.map Prod.fst) cs := by
        refine newKeys_congr cs _ _ ?_
        intro x
        simp [or_comm]
      have h3 : (newKeys (c :: m.map Prod.fst) cs).map
            (fun c' => (c', cs.count c')) =
          (newKeys (c :: m.map Prod.fst) cs).map
            (fun c' => (c', (c :: cs).count c')) := by
        refine List.map_congr_left ?_
        intro c' hc'
        have hne : c' ≠ c := by
          have hns := newKeys_not_seen cs (c :: m.map Prod.fst) c' hc'
          exact fun he => hns (he ▸ List.mem_cons_self c (m.map Prod.fst))
        rw [List.count_cons_of_ne hne]
      rw [h1, h2, h3]
      rw [newKeys, if_neg hc, List.map_cons, List.append_assoc,
        List.singleton_append]

/-- Every truthy company value is non-empty. -/
theorem truthy_ne_empty (nodes : List NodeData) (c : String)
    (h : c ∈ truthyCompanies nodes) : c ≠ "" := by
  unfold truthyCompanies at h
  rcases List.mem_filterMap.mp h with ⟨n, _, hn⟩
  cases hc : n.company with
  | none =>
    rw [hc] at hn
    exact absurd hn (by simp)
  | some c' =>
    rw [hc] at hn
    by_cases he : c' = ""
    · rw [he] at hn
      simp at hn
    · have hn' : (if c' = "" then none else some c') = some c := hn
      rw [if_neg he] at hn'
      exact (Option.some.inj hn') ▸ he

/-- For a non-empty company value, its occurrence count among the
truthy company values equals its frequency count over the nodes. -/
theorem count_truthy (nodes : List NodeData) (c : String) (h : c ≠ "") :
    (truthyCompanies nodes).count c =
      nodes.countP (fun n => n.company == some c) := by
  induction nodes with
  | nil => rfl
  | cons n t ih =>
    rw [List.countP_cons]
    cases hc : n.company with
    | none =>
      have ht : truthyCompanies (n :: t) = truthyCompanies t := by
        simp [truthyCompanies, List.filterMap_cons, hc]
      rw [ht, ih]
      simp
    | some c' =>
      by_cases he : c' = ""
      · have ht : truthyCompanies (n :: t) = truthyCompanies t := by
          simp [truthyCompanies, List.filterMap_cons, hc, he]
        rw [ht, ih]
        have hf : (some c' == some c) = false := by
          rw [he]
          simp [Ne.symm h]
        rw [hf]
        simp
      · have ht : truthyCompanies (n :: t) = c' :: truthyCompanies t := by
          simp [truthyCompanies, List.filterMap_cons, hc, he]
        rw [ht]
        by_cases hcc : c' = c
        · subst hcc
          rw [List.count_cons_self, ih]
          simp
        · rw [List.count_cons_of_ne (Ne.symm hcc), ih]
          have hf : (some c' == some c) = false := by simp [hcc]
          rw [hf]
          simp

/-- The company map built by the FilterPanel equals the spec-side
frequency list: distinct non-empty companies in first-encountered
order, each with its frequency count over the nodes. -/
theorem companyEntries_eq_companyFreq (nodes : List NodeData) :
    companyEntries nodes = companyFreq nodes := by
  rw [companyEntries, companyEntries_eq_foldl nodes [],
    foldl_bump_spec (truthyCompanies nodes) [] (by simp)]
  rw [companyFreq]
  simp only [List.map_nil, List.nil_append]
  refine List.map_congr_left ?_
  intro c hcmem
  have h1 : c ∈ truthyCompanies nodes :=
    newKeys_subset (truthyCompanies nodes) [] c hcmem
  have h2 : c ≠ "" := truthy_ne_empty nodes c h1
  rw [count_truthy nodes c h2]

/-- Descending-by-count order on leaderboard entries. -/
def countGE (a b : String × Nat) : Prop := b.2 ≤ a.2

/-- Membership through stable insertion. -/
theorem mem_insertByCountDesc (x y : String × Nat) :
    ∀ l : List (String × Nat),
      y ∈ insertByCountDesc x l ↔ y = x ∨ y ∈ l := by
  intro l
  induction l with
  | nil => simp [insertByCountDesc]
  | cons z zs ih =>
    rw [insertByCountDesc]
    by_cases hz : x.2 ≤ z.2
    · rw [if_pos hz]
      simp only [List.mem_cons, ih]
      tauto
    · rw [if_neg hz]
      simp

/-- Stable insertion preserves the descending pairwise order. -/
theorem pairwise_insertByCountDesc (x : String × Nat) :
    ∀ l : List (String × Nat),
      l.Pairwise countGE → (insertByCountDesc x l).Pairwise countGE := by
  intro l
  induction l with
  | nil =>
    intro _
    exact List.pairwise_singleton countGE x
  | cons z zs ih =>
    intro hp
    rcases List.pairwise_cons.mp hp with ⟨hz, hzs⟩
    rw [insertByCountDesc]
    by_cases hle : x.2 ≤ z.2
    · rw [if_pos hle]
      refine List.pairwise_cons.mpr ⟨?_, ih hzs⟩
      intro y hy
      rcases (mem_insertByCountDesc x y zs).mp hy with h | h
      · exact h ▸ hle
      · exact hz y h
    · rw [if_neg hle]
      have hxz : z.2 ≤ x.2 := Nat.le_of_lt (Nat.lt_of_not_le hle)
      refine List.pairwise_cons.mpr ⟨?_, hp⟩
      intro y hy
      rcases List.mem_cons.mp hy with h | h
      · exact h ▸ hxz
      · exact Nat.le_trans (hz y h) hxz

/-- The stable sort of the leaderboard is descending by count. -/
theorem sortByCountDesc_pairwise (l : List (String × Nat)) :
    (sortByCountDesc l).Pairwise countGE := by
  have general : ∀ (l acc : List (String × Nat)), acc.Pairwise countGE →
      (l.foldl (fun acc x => insertByCountDesc x acc) acc).Pairwise countGE := by
    intro l
    induction l with
    | nil => intro acc h; exact h
    | cons x xs ih =>
      intro acc h
      rw [List.foldl_cons]
      exact ih (insertByCountDesc x acc) (pairwise_insertByCountDesc x acc h)
  exact general l [] List.Pairwise.nil

/-- Inserting an entry with a different count does not disturb the
entries of any other count. -/
theorem filter_insertByCountDesc_ne (x : String × Nat) (k : Nat)
    (hk : x.2 ≠ k) :
    ∀ l : List (String × Nat),
      (insertByCountDesc x l).filter (fun p => p.2 == k) =
        l.filter (fun p => p.2 == k) := by
  intro l
  induction l with
  | nil =>
    rw [insertByCountDesc]
    simp [List.filter_cons, hk]
  | cons z zs ih =>
    rw [insertByCountDesc]
    by_cases hz : x.2 ≤ z.2
    · rw [if_pos hz, List.filter_cons, List.filter_cons, ih]
    · rw [if_neg hz, List.filter_cons]
      have hxf : (x.2 == k) = false := by simp [hk]
      rw [hxf]
      simp

/-- Inserting an entry into a descending list appends it after the
existing entries of the same count. -/
theorem filter_insertByCountDesc_eq (x : String × Nat) :
    ∀ l : List (String × Nat), l.Pairwise countGE →
      (insertByCountDesc x l).filter (fun p => p.2 == x.2) =
        l.filter (fun p => p.2 == x.2) ++ [x] := by
  intro l
  induction l with
  | nil =>
    intro _
    rw [insertByCountDesc]
    simp
  | cons z zs ih =>
    intro hp
    rcases List.pairwise_cons.mp hp with ⟨hz, hzs⟩
    rw [insertByCountDesc]
    by_cases hle : x.2 ≤ z.2
    · rw [if_pos hle, List.filter_cons, List.filter_cons, ih hzs]
      by_cases hzx : z.2 = x.2
      · simp [hzx]
      · have : (z.2 == x.2) = false := by simp [hzx]
        rw [this]
        simp
    · rw [if_neg hle]
      have hlt : z.2 < x.2 := Nat.lt_of_not_le hle
      have hnone : (z :: zs).filter (fun p => p.2 == x.2) = [] := by
        rw [List.filter_eq_nil_iff]
        intro p hpmem
        have hple : p.2 ≤ z.2 := by
          rcases List.mem_cons.mp hpmem with h | h
          · exact h ▸ Nat.le_refl z.2
          · exact hz p h
        have : p.2 ≠ x.2 := Nat.ne_of_lt (Nat.lt_of_le_of_lt hple hlt)
        simp [this]
      rw [List.filter_cons]
      have hxt : (x.2 == x.2) = true := beq_self_eq_true x.2
      rw [hxt, hnone]
      simp [hnone]

/-- Stability of the sort: for every count value, the entries carrying
that count appear in the sorted list exactly as they appear in the
input, in the same order. -/
theorem sortByCountDesc_stable (l : List (String × Nat)) (k : Nat) :
    (sortByCountDesc l).filter (fun p => p.2 == k) =
      l.filter (fun p => p.2 == k) := by
  have general : ∀ (l acc : List (String × Nat)), acc.Pairwise countGE →
      (l.foldl (fun acc x => insertByCountDesc x acc) acc).filter
        (fun p => p.2 == k) =
      acc.filter (fun p => p.2 == k) ++ l.filter (fun p => p.2 == k) := by
    intro l
    induction l with
    | nil =>
      intro acc _
      simp
    | cons x xs ih =>
      intro acc h
      rw [List.foldl_cons,
        ih (insertByCountDesc x acc) (pairwise_insertByCountDesc x acc h),
        List.filter_cons]
      by_cases hx : x.2 = k
      · have hxt : (x.2 == k) = true := by simp [hx]
        rw [hxt]
        have := filter_insertByCountDesc_eq x acc h
        rw [hx] at this
        rw [this, List.append_assoc, List.singleton_append]
        simp
      · have hxf : (x.2 == k) = false := by simp [hx]
        rw [hxf, filter_insertByCountDesc_ne x k hx acc]
        simp
  have h0 := general l [] List.Pairwise.nil
  simpa [sortByCountDesc] using h0

/-- C7: the available-companies leaderboard of the FilterPanel is the
frequency count of each non-empty company value over the graph's nodes
(in first-encountered order in companyFreq), sorted descending by count
by a stable sort — ties keep their first-encountered order, expressed
by the per-count filter preservation — and truncated to the first 20
entries. -/
theorem availableCompanies_leaderboard_spec (nodes : List NodeData) :
    availableCompanies nodes = (sortByCountDesc (companyFreq nodes)).take 20 ∧
    (sortByCountDesc (companyFreq nodes)).Pairwise countGE ∧
    ∀ k : Nat,
      (sortByCountDesc (companyFreq nodes)).filter (fun p => p.2 == k) =
        (companyFreq nodes).filter (fun p => p.2 == k) := by
  refine ⟨?_, sortByCountDesc_pairwise _, fun k => sortByCountDesc_stable _ k⟩
  rw [availableCompanies, companyEntries_eq_companyFreq]

/-- InferenceSettings from src/types.ts: weights and threshold are the
rational values of the range sliders (step 0.5); the similarity
threshold is the integer value of its slider (parseInt). -/
structure InferenceSettings where
  company_weight : Rat
  school_weight : Rat
  location_weight : Rat
  position_weight : Rat
  threshold : Rat
  fuzzy_matching : Bool
  similarity_threshold : Int
deriving DecidableEq

/-- The default settings, used verbatim as the initial useState value
of both the SettingsPanel and the UploadForm, and by the SettingsPanel
reset-to-defaults button. -/
def defaultInferenceSettings : InferenceSettings :=
  { company_weight := 3
    school_weight := 2
    location_weight := 1
    position_weight := 1
    threshold := 2
    fuzzy_matching := true
    similarity_threshold := 85 }

/-- The settings values constructible through the settings UI: the
defaults (initial state and reset), the fuzzy-matching checkbox, and
each slider edit whose event value lies within the slider's declared
min/max range (0 to 5 for the four weights, 0.5 to 10 for the
threshold, 60 to 100 for the similarity threshold). -/
inductive ReachableSettings : InferenceSettings → Prop
  | init : ReachableSettings defaultInferenceSettings
  | reset (s : InferenceSettings) : ReachableSettings s →
      ReachableSettings defaultInferenceSettings
  | setCompanyWeight (s : InferenceSettings) (v : Rat) :
      ReachableSettings s → 0 ≤ v → v ≤ 5 →
      ReachableSettings { s with company_weight := v }
  | setSchoolWeight (s : InferenceSettings) (v : Rat) :
      ReachableSettings s → 0 ≤ v → v ≤ 5 →
      ReachableSettings { s with school_weight := v }
  | setLocationWeight (s : InferenceSettings) (v : Rat) :
      ReachableSettings s → 0 ≤ v → v ≤ 5 →
      ReachableSettings { s with location_weight := v }
  | setPositionWeight (s : InferenceSettings) (v : Rat) :
      ReachableSettings s → 0 ≤ v → v ≤ 5 →
      ReachableSettings { s with position_weight := v }
  | setThreshold (s : InferenceSettings) (v : Rat) :
      ReachableSettings s → 1 / 2 ≤ v → v ≤ 10 →
      ReachableSettings { s with threshold := v }
  | setFuzzy (s : InferenceSettings) (b : Bool) :
      ReachableSettings s → ReachableSettings { s with fuzzy_matching := b }
  | setSimilarity (s : InferenceSettings) (v : Int) :
      ReachableSettings s → 60 ≤ v → v ≤ 100 →
      ReachableSettings { s with similarity_threshold := v }

/-- The range invariant of C8: similarity threshold within 0 to 100 and
in fact within 60 to 100, threshold within 0.5 to 10, each weight
within 0 to 5. -/
def SettingsInRange (s : InferenceSettings) : Prop :=
  (0 ≤ s.similarity_threshold ∧ s.similarity_threshold ≤ 100) ∧
  (60 ≤ s.similarity_threshold ∧ s.similarity_threshold ≤ 100) ∧
  (1 / 2 ≤ s.threshold ∧ s.threshold ≤ 10) ∧
  (0 ≤ s.company_weight ∧ s.company_weight ≤ 5) ∧
  (0 ≤ s.school_weight ∧ s.school_weight ≤ 5) ∧
  (0 ≤ s.location_weight ∧ s.location_weight ≤ 5) ∧
  (0 ≤ s.position_weight ∧ s.position_weight ≤ 5)

/-- The defaults satisfy the range invariant. -/
theorem default_settings_in_range : SettingsInRange defaultInferenceSettings := by
  refine ⟨⟨?_, ?_⟩, ⟨?_, ?_⟩, ⟨?_, ?_⟩, ⟨?_, ?_⟩, ⟨?_, ?_⟩, ⟨?_, ?_⟩, ⟨?_, ?_⟩⟩ <;>
    norm_num [defaultInferenceSettings]

/-- C8: every InferenceSettings value constructible through the
settings UI — the initial defaults, reset-to-defaults, the checkbox,
and any slider edit whose event value lies within that slider's
declared min/max range — satisfies the range invariant: the similarity
threshold lies within 0 to 100 (in fact 60 to 100), the threshold
within 0.5 to 10, and each attribute weight within 0 to 5. -/
theorem settings_ui_values_in_range (s : InferenceSettings)
    (h : ReachableSettings s) : SettingsInRange s := by
  induction h with
  | init => exact default_settings_in_range
  | reset _ _ _ => exact default_settings_in_range
  | setCompanyWeight s v _ h0 h5 ih =>
    obtain ⟨a, b, c, _, e, f, g⟩ := ih
    exact ⟨a, b, c, ⟨h0, h5⟩, e, f, g⟩
  | setSchoolWeight s v _ h0 h5 ih =>
    obtain ⟨a, b, c, d, _, f, g⟩ := ih
    exact ⟨a, b, c, d, ⟨h0, h5⟩, f, g⟩
  | setLocationWeight s v _ h0 h5 ih =>
    obtain ⟨a, b, c, d, e, _, g⟩ := ih
    exact ⟨a, b, c, d, e, ⟨h0, h5⟩, g⟩
  | setPositionWeight s v _ h0 h5 ih =>
    obtain ⟨a, b, c, d, e, f, _⟩ := ih
    exact ⟨a, b, c, d, e, f, ⟨h0, h5⟩⟩
  | setThreshold s v _ hlo hhi ih =>
    obtain ⟨a, b, _, d, e, f, g⟩ := ih
    exact ⟨a, b, ⟨hlo, hhi⟩, d, e, f, g⟩
  | setFuzzy s b _ ih => exact ih
  | setSimilarity s v _ hlo hhi ih =>
    obtain ⟨_, _, c, d, e, f, g⟩ := ih
    exact ⟨⟨le_trans (by norm_num) hlo, hhi⟩, ⟨hlo, hhi⟩, c, d, e, f, g⟩

/-- Witness for C8 at the concrete default settings. -/
theorem settings_ui_values_in_range_witness :
    SettingsInRange defaultInferenceSettings :=
  settings_ui_values_in_range defaultInferenceSettings ReachableSettings.init

end LinkedinGenie
